import Mathlib

/-!
Verification of the streaming synthesis-and-alignment pipeline in
`vocode/streaming/synthesizer/polly_synthesizer.py`.

Shallow embedding conventions:
* the raw audio stream is modelled by the list of bytes it will deliver,
  a `read(chunkSize)` returning `min chunkSize remaining` bytes
  (`List.take` / `List.drop`);
* Python `str` values become `List Char`, Python slicing `s[:k]` becomes
  `List.take k` (both clamp at the end of the string);
* the float `seconds` argument becomes a rational number, so that the
  comparison `event.time > seconds * 1000` is exact;
* `json.loads` is an external library call, abstracted as a decoder
  argument returning `Except`;
* raising an exception becomes returning `Except.error`.
-/

/-- One parsed speech-mark record: Python dict with integer fields
`time` (milliseconds) and `start` (character offset into the text). -/
structure TimingEvent where
  time : Int
  start : Nat
  deriving DecidableEq, Repr

/-- One `SynthesisResult.ChunkResult(chunk, is_last)` as produced by
`chunk_generator`: a payload of bytes and the final-chunk flag. -/
structure ChunkResult where
  payload : List Nat
  isFinal : Bool
  deriving DecidableEq, Repr

/-- Embedding of `PollySynthesizer.get_message_up_to(message, seconds, word_events)`
(lines 63-73): scan `word_events` in order; on the first event whose
`time` (ms) is strictly greater than `seconds * 1000`, return
`message[: event["start"]]`; if no event qualifies, return `message`. -/
def get_message_up_to (message : List Char) (seconds : ℚ)
    (word_events : List TimingEvent) : List Char :=
  match word_events with
  | [] => message
  | event :: rest =>
    if (event.time : ℚ) > seconds * 1000 then message.take event.start
    else get_message_up_to message seconds rest

/-- Modelled from the spec: `resolvePrefixSpec` is §4.3's `resolvePrefix` as
worded there — "return the prefix of `text` ending at the `startOffset` of
the first event whose `timeMs > elapsedSeconds * 1000`; if no event
satisfies that condition, return the full `text`."  Used only to compare
the spec's wording with the code's `get_message_up_to`. -/
def resolvePrefixSpec (text : List Char) (elapsedSeconds : ℚ)
    (events : List TimingEvent) : List Char :=
  match events.find? (fun e => decide ((e.time : ℚ) > elapsedSeconds * 1000)) with
  | some e => text.take e.start
  | none => text

/-- Embedding of `chunk_generator` (lines 96-113) applied to a stream holding `data`:
each pull reads up to `c` bytes; a full read yields a non-final chunk and
continues, a short read (including zero bytes) yields the final chunk and
stops.  `transform` is the `chunk_transform` argument (default identity).
The source unrolls the first read before the `while` loop; the behaviour
is the uniform loop embedded here.  For `c = 0` the source loops forever
(every `read(0)` returns `b''` of length `0 = chunk_size`); every claim
assumes `c ≥ 1`, and the guard `0 < c` below only closes that
non-terminating case. -/
def chunk_generator (c : Nat) (transform : List Nat → List Nat)
    (data : List Nat) : List ChunkResult :=
  if h : (data.take c).length = c ∧ 0 < c then
    ⟨transform (data.take c), false⟩ :: chunk_generator c transform (data.drop c)
  else
    [⟨transform (data.take c), true⟩]
termination_by data.length
decreasing_by
  have hcd : c ≤ data.length := by
    have := h.1
    simp [List.length_take] at this
    omega
  simp [List.length_drop]
  omega

/-- Pull-level view of the async generator protocol: after the generator
body finishes (it `return`s or `break`s right after yielding the final
chunk), the generator object is exhausted and any further pull raises
the stream-exhausted error (`StopAsyncIteration`). -/
inductive GenState where
  | streaming (rest : List Nat)
  | done
  deriving DecidableEq, Repr

inductive StreamError where
  | streamExhausted
  deriving DecidableEq, Repr

/-- One pull on the generator of lines 96-113: in the `streaming` state,
read up to `c` bytes; a short read yields the final chunk and moves to
`done`; a full read yields a non-final chunk and stays `streaming`.
In the `done` state a pull is an error. -/
def gen_pull (c : Nat) (transform : List Nat → List Nat) :
    GenState → Except StreamError (ChunkResult × GenState)
  | .streaming rest =>
    if (rest.take c).length ≠ c then
      .ok (⟨transform (rest.take c), true⟩, .done)
    else
      .ok (⟨transform (rest.take c), false⟩, .streaming (rest.drop c))
  | .done => .error .streamExhausted

/-- The `PollySynthesizerConfig` fields read by `PollySynthesizer.__init__`. -/
structure PollySynthesizerConfig where
  sampling_rate : Nat
  language_code : String
  voice_id : String
  should_encode_as_wav : Bool

inductive InitError where
  | unsupportedSamplingRate (rate : Nat)
  deriving DecidableEq

/-- The state `__init__` (lines 18-37) leaves on the object. -/
structure PollySynthesizer where
  sampling_rate : Nat
  language_code : String
  voice_id : String

/-- Embedding of `PollySynthesizer.__init__` (lines 18-37): raise
`Exception("Sampling rate not supported by AWS Polly", rate)` when the
configured `sampling_rate` is not in `[8000, 16000]`, otherwise store the
configuration.  (The `boto3.client` call is an external collaborator.) -/
def PollySynthesizer.init (config : PollySynthesizerConfig) :
    Except InitError PollySynthesizer :=
  if config.sampling_rate ∉ [8000, 16000] then
    .error (.unsupportedSamplingRate config.sampling_rate)
  else
    .ok ⟨config.sampling_rate, config.language_code, config.voice_id⟩

inductive DecodeError where
  | malformed (record : List Char)
  deriving DecidableEq

/-- Python `str.split()` with no separator (line 92): split the string on
runs of whitespace, never emitting empty pieces.  `cur` accumulates the
current token in reverse. -/
def py_split_go (cur : List Char) : List Char → List (List Char)
  | [] => if cur = [] then [] else [cur.reverse]
  | ch :: rest =>
    if ch.isWhitespace then
      if cur = [] then py_split_go [] rest
      else cur.reverse :: py_split_go [] rest
    else py_split_go (ch :: cur) rest

def py_split (s : List Char) : List (List Char) :=
  py_split_go [] s

/-- The records iterated by lines 90-94: `raw.split()` followed by the
`if v` filter of line 93 (which drops empty records — `split()` already
never produces any, so the filter is the identity here). -/
def split_tokens (raw : List Char) : List (List Char) :=
  (py_split raw).filter (fun v => v ≠ [])

/-- The list comprehension `[json.loads(v) for v in ... if v]`
(lines 90-94) with `json.loads` abstracted as `decode`: decode each token
in order; the first decoding exception aborts the whole comprehension,
producing no partial list. -/
def decode_all (decode : List Char → Except DecodeError TimingEvent) :
    List (List Char) → Except DecodeError (List TimingEvent)
  | [] => .ok []
  | v :: rest =>
    match decode v with
    | .error e => .error e
    | .ok ev =>
      match decode_all decode rest with
      | .error e => .error e
      | .ok evs => .ok (ev :: evs)

/-- The `word_events` parsing in `create_speech_with_cache` (lines 90-94):
split the raw timing stream on whitespace, drop empty records, decode
each remaining record in order; any failure fails the whole parse. -/
def parse_word_events (decode : List Char → Except DecodeError TimingEvent)
    (raw : List Char) : Except DecodeError (List TimingEvent) :=
  decode_all decode (split_tokens raw)

/-! ### Helper lemmas about `chunk_generator` -/

lemma chunk_generator_full (c : Nat) (t : List Nat → List Nat) (data : List Nat)
    (hc : 0 < c) (hcd : c ≤ data.length) :
    chunk_generator c t data =
      ⟨t (data.take c), false⟩ :: chunk_generator c t (data.drop c) := by
  rw [chunk_generator, dif_pos ⟨by simp [List.length_take]; omega, hc⟩]

lemma chunk_generator_last (c : Nat) (t : List Nat → List Nat) (data : List Nat)
    (hlt : data.length < c) :
    chunk_generator c t data = [⟨t data, true⟩] := by
  rw [chunk_generator,
    dif_neg (by rintro ⟨h1, _⟩; simp [List.length_take] at h1; omega)]
  rw [List.take_of_length_le (Nat.le_of_lt hlt)]

lemma chunk_generator_length (c : Nat) (hc : 0 < c) (t : List Nat → List Nat)
    (data : List Nat) :
    (chunk_generator c t data).length = data.length / c + 1 := by
  induction data using chunk_generator.induct c t with
  | case1 data h ih =>
    have hcd : c ≤ data.length := by
      have := h.1
      simp [List.length_take] at this
      omega
    rw [chunk_generator_full c t data hc hcd]
    simp only [List.length_cons, ih, List.length_drop]
    rw [Nat.div_eq_sub_div hc hcd]
  | case2 data h =>
    have hlt : data.length < c := by
      by_contra hge
      push_neg at hge
      exact h ⟨by simp [List.length_take]; omega, hc⟩
    rw [chunk_generator_last c t data hlt]
    simp [Nat.div_eq_of_lt hlt]

lemma chunk_generator_payload_lengths (c : Nat) (hc : 0 < c) (data : List Nat) :
    ∀ ch ∈ chunk_generator c (fun x => x) data,
      (ch.isFinal = false → ch.payload.length = c) ∧
      (ch.isFinal = true → ch.payload.length = data.length % c) := by
  induction data using chunk_generator.induct c (fun x => x) with
  | case1 data h ih =>
    have hcd : c ≤ data.length := by
      have := h.1
      simp [List.length_take] at this
      omega
    rw [chunk_generator_full c _ data hc hcd]
    intro ch hch
    rcases List.mem_cons.mp hch with hhd | htl
    · subst hhd
      constructor
      · intro _
        simp [List.length_take]
        omega
      · intro hfalse
        simp at hfalse
    · have := ih ch htl
      refine ⟨this.1, fun hfin => ?_⟩
      rw [this.2 hfin, List.length_drop, Nat.mod_eq_sub_mod hcd]
  | case2 data h =>
    have hlt : data.length < c := by
      by_contra hge
      push_neg at hge
      exact h ⟨by simp [List.length_take]; omega, hc⟩
    rw [chunk_generator_last c _ data hlt]
    intro ch hch
    rcases List.mem_cons.mp hch with hhd | htl
    · subst hhd
      exact ⟨fun hfalse => by simp at hfalse,
        fun _ => by simp [Nat.mod_eq_of_lt hlt]⟩
    · simp at htl

lemma chunk_generator_isFinal_map (c : Nat) (hc : 0 < c)
    (t : List Nat → List Nat) (data : List Nat) :
    (chunk_generator c t data).map ChunkResult.isFinal =
      List.replicate (data.length / c) false ++ [true] := by
  induction data using chunk_generator.induct c t with
  | case1 data h ih =>
    have hcd : c ≤ data.length := by
      have := h.1
      simp [List.length_take] at this
      omega
    rw [chunk_generator_full c t data hc hcd]
    simp only [List.map_cons, ih, List.length_drop]
    rw [Nat.div_eq_sub_div hc hcd, List.replicate_succ]
    rfl
  | case2 data h =>
    have hlt : data.length < c := by
      by_contra hge
      push_neg at hge
      exact h ⟨by simp [List.length_take]; omega, hc⟩
    rw [chunk_generator_last c t data hlt]
    simp [Nat.div_eq_of_lt hlt]

lemma chunk_generator_transform_eq (c : Nat) (hc : 0 < c)
    (t : List Nat → List Nat) (data : List Nat) :
    chunk_generator c t data =
      (chunk_generator c (fun x => x) data).map
        (fun ch => ⟨t ch.payload, ch.isFinal⟩) := by
  induction data using chunk_generator.induct c t with
  | case1 data h ih =>
    have hcd : c ≤ data.length := by
      have := h.1
      simp [List.length_take] at this
      omega
    rw [chunk_generator_full c t data hc hcd,
      chunk_generator_full c (fun x => x) data hc hcd]
    simp only [List.map_cons, ih]
  | case2 data h =>
    have hlt : data.length < c := by
      by_contra hge
      push_neg at hge
      exact h ⟨by simp [List.length_take]; omega, hc⟩
    rw [chunk_generator_last c t data hlt,
      chunk_generator_last c (fun x => x) data hlt]
    rfl

/-! ### Claim theorems: chunked audio stream -/

/-- C1 counterexample: for chunk size `c = 1` and a 1-byte stream the
claim predicts exactly `ceil(1/1) = 1` chunk (the final one, of payload
length `1`), but `chunk_generator` yields `2` chunks — the full read is
followed by one more read that comes back empty and produces an empty
final chunk. -/
theorem chunk_generator_count_counterexample :
    chunk_generator 1 (fun x => x) [0] =
      [⟨[0], false⟩, ⟨[], true⟩] ∧
    (chunk_generator 1 (fun x => x) [0]).length ≠ (1 + 1 - 1) / 1 := by
  constructor
  · simp [chunk_generator]
  · simp [chunk_generator]

/-- C1 (amended): for every chunk size `c ≥ 1` and stream of `n` bytes,
`chunk_generator` yields exactly `n / c + 1` chunks (that is `ceil(n/c)`
when `c` does not divide `n`, and one extra trailing empty chunk when `c`
divides `n`, including `n = 0`); every non-final chunk's payload has
length exactly `c`, and the final chunk's payload has length `n % c`
(in particular `0`, not `c`, when `c` divides `n`). -/
theorem chunk_generator_count_and_sizes (c : Nat) (hc : 1 ≤ c) (data : List Nat) :
    (chunk_generator c (fun x => x) data).length = data.length / c + 1 ∧
    ∀ ch ∈ chunk_generator c (fun x => x) data,
      (ch.isFinal = false → ch.payload.length = c) ∧
      (ch.isFinal = true → ch.payload.length = data.length % c) :=
  ⟨chunk_generator_length c hc (fun x => x) data,
   chunk_generator_payload_lengths c hc data⟩

/-- Witness for C1 (amended) at `c = 2`, `data = [9, 9, 9]`:
3 bytes make `3 / 2 + 1 = 2` chunks, the non-final one of length `2`,
the final one of length `3 % 2 = 1`. -/
theorem chunk_generator_count_and_sizes_witness :
    (chunk_generator 2 (fun x => x) [9, 9, 9]).length = 3 / 2 + 1 ∧
    ∀ ch ∈ chunk_generator 2 (fun x => x) [9, 9, 9],
      (ch.isFinal = false → ch.payload.length = 2) ∧
      (ch.isFinal = true → ch.payload.length = 3 % 2) :=
  chunk_generator_count_and_sizes 2 (by decide) [9, 9, 9]

/-- C3: for every chunk size `c ≥ 1`, every transform and every stream,
the produced flag sequence is `false, …, false, true`: exactly one chunk
has `isFinal = true`, it is the last chunk, and nothing follows it. -/
theorem chunk_generator_single_final (c : Nat) (hc : 1 ≤ c)
    (t : List Nat → List Nat) (data : List Nat) :
    (chunk_generator c t data).map ChunkResult.isFinal =
      List.replicate (data.length / c) false ++ [true] :=
  chunk_generator_isFinal_map c hc t data

/-- Witness for C3 at `c = 1`, `data = [5, 6]`. -/
theorem chunk_generator_single_final_witness :
    (chunk_generator 1 (fun x => x) [5, 6]).map ChunkResult.isFinal =
      List.replicate (2 / 1) false ++ [true] :=
  chunk_generator_single_final 1 (by decide) (fun x => x) [5, 6]

/-- C7: `chunk_transform` is applied to the payload of every produced
chunk, final and non-final alike, and never changes any chunk's `isFinal`
flag: against the untransformed run (`chunk_transform` left at its default
`lambda x: x`, the `should_encode_as_wav = False` path), the payloads are
the transform of the untransformed payloads chunk for chunk, and the
`isFinal` flags are equal chunk for chunk — so the identity transform
leaves the whole sequence unchanged. -/
theorem chunk_generator_transform_uniform (c : Nat) (hc : 1 ≤ c)
    (t : List Nat → List Nat) (data : List Nat) :
    (chunk_generator c t data).map ChunkResult.payload =
      ((chunk_generator c (fun x => x) data).map ChunkResult.payload).map t ∧
    (chunk_generator c t data).map ChunkResult.isFinal =
      (chunk_generator c (fun x => x) data).map ChunkResult.isFinal := by
  rw [chunk_generator_transform_eq c hc t data]
  simp [List.map_map, Function.comp]

/-- Witness for C7 at `c = 2`, `data = [1, 2, 3]`, transform duplicating
the payload. -/
theorem chunk_generator_transform_uniform_witness :
    (chunk_generator 2 (fun x => x ++ x) [1, 2, 3]).map ChunkResult.payload =
      ((chunk_generator 2 (fun x => x) [1, 2, 3]).map ChunkResult.payload).map
        (fun x => x ++ x) ∧
    (chunk_generator 2 (fun x => x ++ x) [1, 2, 3]).map ChunkResult.isFinal =
      (chunk_generator 2 (fun x => x) [1, 2, 3]).map ChunkResult.isFinal :=
  chunk_generator_transform_uniform 2 (by decide) (fun x => x ++ x) [1, 2, 3]

/-- C8: a pull on a chunk sequence already in the `done` state yields the
stream-exhausted error (never another chunk, never a restart), and any
pull that yields a chunk with `isFinal = true` leaves the sequence in the
`done` state. -/
theorem gen_pull_done (c : Nat) (t : List Nat → List Nat) :
    gen_pull c t GenState.done = Except.error StreamError.streamExhausted ∧
    ∀ rest ch s, gen_pull c t (GenState.streaming rest) = Except.ok (ch, s) →
      ch.isFinal = true → s = GenState.done := by
  refine ⟨rfl, fun rest ch s hpull hfin => ?_⟩
  simp only [gen_pull] at hpull
  split at hpull
  · simp only [Except.ok.injEq, Prod.mk.injEq] at hpull
    exact hpull.2.symm
  · simp only [Except.ok.injEq, Prod.mk.injEq] at hpull
    rw [← hpull.1] at hfin
    simp at hfin

/-- Witness for C8: pulling a 0-byte stream with `c = 1` yields the final
chunk and the `done` state; a pull in the `done` state errors. -/
theorem gen_pull_done_witness :
    gen_pull 1 (fun x => x) GenState.done =
      Except.error StreamError.streamExhausted ∧
    GenState.done = GenState.done :=
  ⟨(gen_pull_done 1 (fun x => x)).1,
   (gen_pull_done 1 (fun x => x)).2 [] ⟨[], true⟩ GenState.done (by simp [gen_pull]) rfl⟩

/-! ### Claim theorems: construction and timing-stream parsing -/

/-- C5: construction fails — with the error naming the configured rate —
exactly when the configured sampling rate is not `8000` and not `16000`;
for `8000` and `16000` construction succeeds.  The check sits in
`__init__`, before any synthesis call can exist. -/
theorem init_fails_iff (config : PollySynthesizerConfig) :
    (PollySynthesizer.init config =
        Except.error (InitError.unsupportedSamplingRate config.sampling_rate) ↔
      config.sampling_rate ≠ 8000 ∧ config.sampling_rate ≠ 16000) ∧
    ((∃ s, PollySynthesizer.init config = Except.ok s) ↔
      config.sampling_rate = 8000 ∨ config.sampling_rate = 16000) := by
  rcases Decidable.em (config.sampling_rate ∈ [8000, 16000]) with hmem | hmem
  · have h8 : config.sampling_rate = 8000 ∨ config.sampling_rate = 16000 := by
      simpa using hmem
    constructor
    · simp [PollySynthesizer.init, hmem]
      tauto
    · simp [PollySynthesizer.init, hmem, h8]
  · have h8 : ¬(config.sampling_rate = 8000 ∨ config.sampling_rate = 16000) := by
      simpa using hmem
    constructor
    · simp [PollySynthesizer.init, hmem]
      tauto
    · simp [PollySynthesizer.init, hmem]
      tauto

/-- First decoding failure fails the whole `decode_all`, and success means
every token decoded, in order. -/
lemma decode_all_error_iff (decode : List Char → Except DecodeError TimingEvent) :
    ∀ l : List (List Char),
      (∃ e, decode_all decode l = Except.error e) ↔
        ∃ v ∈ l, ∃ e, decode v = Except.error e := by
  intro l
  induction l with
  | nil => simp [decode_all]
  | cons v rest ih =>
    cases hv : decode v with
    | error e => simp [decode_all, hv]
    | ok ev =>
      cases hrest : decode_all decode rest with
      | error e =>
        have hr : ∃ e, decode_all decode rest = Except.error e := ⟨e, hrest⟩
        simp only [decode_all, hv, hrest, List.mem_cons]
        constructor
        · intro _
          rcases ih.mp hr with ⟨w, hw, he⟩
          exact ⟨w, Or.inr hw, he⟩
        · intro _
          exact ⟨e, rfl⟩
      | ok evs =>
        simp only [decode_all, hv, hrest, List.mem_cons]
        constructor
        · rintro ⟨e, he⟩
          simp at he
        · rintro ⟨w, hw | hw, e, he⟩
          · rw [hw] at he
            rw [hv] at he
            simp at he
          · exact absurd (ih.mpr ⟨w, hw, e, he⟩) (by simp [hrest])

lemma decode_all_ok_forall (decode : List Char → Except DecodeError TimingEvent) :
    ∀ (l : List (List Char)) (res : List TimingEvent),
      decode_all decode l = Except.ok res →
      List.Forall₂ (fun v ev => decode v = Except.ok ev) l res := by
  intro l
  induction l with
  | nil =>
    intro res h
    simp [decode_all] at h
    subst h
    exact List.Forall₂.nil
  | cons v rest ih =>
    intro res h
    cases hv : decode v with
    | error e => simp [decode_all, hv] at h
    | ok ev =>
      cases hrest : decode_all decode rest with
      | error e => simp [decode_all, hv, hrest] at h
      | ok evs =>
        simp only [decode_all, hv, hrest, Except.ok.injEq] at h
        rw [← h]
        exact List.Forall₂.cons hv (ih evs hrest)

/-- C6: parsing the raw timing stream splits it on whitespace, keeps only
non-empty records (which moreover contain no whitespace), and decodes the
records in stream order; the parse fails iff some kept record fails to
decode (no partial event list is ever produced), and a successful parse
pairs each kept record with its event, in order. -/
theorem parse_word_events_all_or_nothing
    (decode : List Char → Except DecodeError TimingEvent) (raw : List Char) :
    (∀ v ∈ split_tokens raw, v ≠ []) ∧
    ((∃ e, parse_word_events decode raw = Except.error e) ↔
      ∃ v ∈ split_tokens raw, ∃ e, decode v = Except.error e) ∧
    ∀ events, parse_word_events decode raw = Except.ok events →
      List.Forall₂ (fun v ev => decode v = Except.ok ev) (split_tokens raw) events := by
  refine ⟨fun v hv => ?_, decode_all_error_iff decode (split_tokens raw),
    fun events h => decode_all_ok_forall decode (split_tokens raw) events h⟩
  have := List.mem_filter.mp hv
  simpa using this.2

/-- Decoder used to witness C6: accepts the record `7`, rejects others. -/
def decode_seven : List Char → Except DecodeError TimingEvent :=
  fun v => if v = ['7'] then Except.ok ⟨7, 7⟩ else Except.error (DecodeError.malformed v)

/-- Witness for C6 on the raw stream `" 7  7 "`: two records, both decode,
in order. -/
theorem parse_word_events_all_or_nothing_witness :
    List.Forall₂ (fun v ev => decode_seven v = Except.ok ev)
      (split_tokens " 7  7 ".toList) [⟨7, 7⟩, ⟨7, 7⟩] :=
  (parse_word_events_all_or_nothing decode_seven " 7  7 ".toList).2.2
    [⟨7, 7⟩, ⟨7, 7⟩] (by rfl)

/-! ### Claim theorems: alignment -/

/-- C2: `get_message_up_to` returns the prefix of the text ending at the
start offset of the first event (in list order) whose time is strictly
greater than `seconds * 1000`, and the full text when no event qualifies
— it coincides with the spec's `resolvePrefix` on every input; on
`"hello world"` with events `(time 0, start 0), (time 500, start 6)` and
elapsed `0` it returns `"hello "`, and with no events it returns the full
text. -/
theorem get_message_up_to_spec :
    (∀ (msg : List Char) (secs : ℚ) (events : List TimingEvent),
      get_message_up_to msg secs events = resolvePrefixSpec msg secs events) ∧
    get_message_up_to "hello world".toList 0 [⟨0, 0⟩, ⟨500, 6⟩] =
      "hello ".toList ∧
    ∀ msg : List Char, get_message_up_to msg 0 [] = msg := by
  refine ⟨fun msg secs events => ?_, by norm_num [get_message_up_to], fun msg => rfl⟩
  induction events with
  | nil => rfl
  | cons e rest ih =>
    by_cases hc : (e.time : ℚ) > secs * 1000
    · simp [get_message_up_to, resolvePrefixSpec, List.find?_cons, hc]
    · simp [get_message_up_to, resolvePrefixSpec, List.find?_cons, hc, ih]

/-- A prefix cut at `s` is a prefix of whatever `get_message_up_to`
returns, provided every event in the scan starts at or after `s`. -/
lemma take_prefixOf_get_message (msg : List Char) (e : ℚ) (s : Nat) :
    ∀ events : List TimingEvent, (∀ ev ∈ events, s ≤ ev.start) →
      msg.take s <+: get_message_up_to msg e events := by
  intro events
  induction events with
  | nil =>
    intro _
    exact ⟨msg.drop s, List.take_append_drop s msg⟩
  | cons ev rest ih =>
    intro hall
    by_cases hc : (ev.time : ℚ) > e * 1000
    · simp only [get_message_up_to, if_pos hc]
      exact List.take_prefix_take_left msg (hall ev (by simp))
    · simp only [get_message_up_to, if_neg hc]
      exact ih (fun x hx => hall x (List.mem_cons_of_mem _ hx))

/-- C4 counterexample: the events `(time 100, start 5), (time 200, start 2)`
are ordered by non-decreasing time, and `0 ≤ 3/20`, yet on `"abcdef"` the
prefix returned for elapsed `0` (namely `"abcde"`) is not a prefix of the
one returned for elapsed `3/20` (namely `"ab"`): time order alone does not
make `get_message_up_to` monotonic. -/
theorem get_message_up_to_monotone_counterexample :
    (0 : ℚ) ≤ 3 / 20 ∧
    List.Pairwise (fun a b : TimingEvent => a.time ≤ b.time)
      [⟨100, 5⟩, ⟨200, 2⟩] ∧
    ¬(get_message_up_to "abcdef".toList 0 [⟨100, 5⟩, ⟨200, 2⟩] <+:
      get_message_up_to "abcdef".toList (3 / 20) [⟨100, 5⟩, ⟨200, 2⟩]) := by
  refine ⟨by norm_num, by decide, ?_⟩
  have h1 : get_message_up_to "abcdef".toList 0 [⟨100, 5⟩, ⟨200, 2⟩] =
      "abcde".toList := by
    norm_num [get_message_up_to]
  have h2 : get_message_up_to "abcdef".toList (3 / 20) [⟨100, 5⟩, ⟨200, 2⟩] =
      "ab".toList := by
    norm_num [get_message_up_to]
  rw [h1, h2]
  decide

/-- C4 (amended): for every text and every event list whose events are
ordered by non-decreasing start offset, `get_message_up_to` is monotonic:
for elapsed times `e1 ≤ e2`, the prefix returned for `e1` is a prefix of
the one returned for `e2`.  (Ordering by non-decreasing time alone does
not suffice, see the counterexample.) -/
theorem get_message_up_to_monotone (msg : List Char) (e1 e2 : ℚ)
    (h12 : e1 ≤ e2) (events : List TimingEvent)
    (hStart : List.Pairwise (fun a b : TimingEvent => a.start ≤ b.start) events) :
    get_message_up_to msg e1 events <+: get_message_up_to msg e2 events := by
  have h1000 : e1 * 1000 ≤ e2 * 1000 :=
    mul_le_mul_of_nonneg_right h12 (by norm_num)
  have main : ∀ events : List TimingEvent,
      List.Pairwise (fun a b : TimingEvent => a.start ≤ b.start) events →
      get_message_up_to msg e1 events <+: get_message_up_to msg e2 events := by
    intro events
    induction events with
    | nil => intro _; exact List.prefix_refl msg
    | cons ev rest ih =>
      intro hSorted
      by_cases hc1 : (ev.time : ℚ) > e1 * 1000
      · by_cases hc2 : (ev.time : ℚ) > e2 * 1000
        · simp only [get_message_up_to, if_pos hc1, if_pos hc2]
          exact List.prefix_refl _
        · simp only [get_message_up_to, if_pos hc1, if_neg hc2]
          exact take_prefixOf_get_message msg e2 ev.start rest
            (List.pairwise_cons.mp hSorted).1
      · have hc2 : ¬((ev.time : ℚ) > e2 * 1000) := by
          intro hgt
          exact hc1 (lt_of_le_of_lt h1000 hgt)
        simp only [get_message_up_to, if_neg hc1, if_neg hc2]
        exact ih (List.pairwise_cons.mp hSorted).2
  exact main events hStart

/-- Witness for C4 (amended) on `"hello world"` with start-sorted events
and elapsed times `0 ≤ 1`. -/
theorem get_message_up_to_monotone_witness :
    get_message_up_to "hello world".toList 0 [⟨0, 0⟩, ⟨500, 6⟩] <+:
      get_message_up_to "hello world".toList 1 [⟨0, 0⟩, ⟨500, 6⟩] :=
  get_message_up_to_monotone "hello world".toList 0 1 (by norm_num)
    [⟨0, 0⟩, ⟨500, 6⟩] (by decide)

/-- C10: for every text, every elapsed time and every finite event list —
with no ordering or bounds assumption on the events — `get_message_up_to`
is a total function whose result is a prefix of the input text, and start
offsets at or past the end of the text yield the full text (Python slicing
clamps, it never raises). -/
theorem get_message_up_to_prefixOf (msg : List Char) (secs : ℚ)
    (events : List TimingEvent) :
    (get_message_up_to msg secs events <+: msg) ∧
    ((∀ ev ∈ events, msg.length ≤ ev.start) →
      get_message_up_to msg secs events = msg) := by
  induction events with
  | nil => exact ⟨List.prefix_refl msg, fun _ => rfl⟩
  | cons ev rest ih =>
    constructor
    · by_cases hc : (ev.time : ℚ) > secs * 1000
      · simp only [get_message_up_to, if_pos hc]
        exact ⟨msg.drop ev.start, List.take_append_drop ev.start msg⟩
      · simp only [get_message_up_to, if_neg hc]
        exact ih.1
    · intro hall
      by_cases hc : (ev.time : ℚ) > secs * 1000
      · simp only [get_message_up_to, if_pos hc]
        exact List.take_of_length_le (hall ev (by simp))
      · simp only [get_message_up_to, if_neg hc]
        exact ih.2 (fun x hx => hall x (List.mem_cons_of_mem _ hx))

/-- Witness for C10: one event with start offset `99`, far past the end of
`"ab"`, still yields the full text. -/
theorem get_message_up_to_prefixOf_witness :
    get_message_up_to "ab".toList 0 [⟨5, 99⟩] = "ab".toList :=
  (get_message_up_to_prefixOf "ab".toList 0 [⟨5, 99⟩]).2 (by decide)
